import Mathlib

/-!
A shallow embedding of the mahjong score dashboard of `src/app.py`.

The wide score table is melted into a long relation of one row per
(game, player); each game group is then sorted by raw score descending,
ranked, and given the rank-keyed uma adjustment.  The dashboard callbacks
filter that relation by an inclusive date range and derive four ranking
tables, a per-day cumulative time series and a summary table.

Scores are exact rationals; dates and players are coded as naturals (the
program only compares them for order and equality).  Dictionary lookup,
whose failure is a Python KeyError, is embedded as an Option-valued
table, so the per-game transform and the whole startup pipeline are
Option-valued.
-/

/-- A player identifier, standing for a column of the wide score table. -/
abbrev Player := Nat

/-- One long-form row as produced by the melt of lines 33-37:
a game identifier, the game date, a player and that player's raw score. -/
structure Row where
  gameId : Nat
  date : Nat
  player : Player
  score : ℚ
  deriving DecidableEq

/-- One long-form row after `compute_uma_and_rank` (lines 42-47): the raw
row plus the assigned rank, the uma-adjusted score and its 50-fold scaling. -/
structure DRow where
  gameId : Nat
  date : Nat
  player : Player
  score : ℚ
  rank : Nat
  umaScore : ℚ
  umaX50 : ℚ
  deriving DecidableEq

/-- The uma table of line 40: rank 1 gets +20, rank 2 gets +10, rank 3 gets
-10, rank 4 gets -20; any other key is absent, so looking it up fails. -/
def rank2uma : Nat → Option ℚ
  | 1 => some 20
  | 2 => some 10
  | 3 => some (-10)
  | 4 => some (-20)
  | _ => none

/-- Comparison used by the per-game sort of line 43: raw score descending. -/
def byScoreDesc (a b : Row) : Prop := b.score ≤ a.score

instance : DecidableRel byScoreDesc := fun a b =>
  inferInstanceAs (Decidable (b.score ≤ a.score))

instance : IsTotal Row byScoreDesc := ⟨fun a b => le_total b.score a.score⟩

instance : IsTrans Row byScoreDesc := ⟨fun _ _ _ hab hbc => le_trans hbc hab⟩

/-- Walk a sorted group assigning 1-based ranks starting at `i + 1` and
looking each rank up in the uma table `t`; a missing rank is a lookup
failure, which aborts the whole group (line 45). -/
def annotate (t : Nat → Option ℚ) : List Row → Nat → Option (List DRow)
  | [], _ => some []
  | r :: rs, i =>
    match t (i + 1), annotate t rs (i + 1) with
    | some u, some rest =>
        some ({ gameId := r.gameId, date := r.date, player := r.player,
                score := r.score, rank := i + 1,
                umaScore := r.score + u, umaX50 := (r.score + u) * 50 } :: rest)
    | _, _ => none

/-- Lines 42-47: sort the group's rows by raw score descending, set
Rank = 1-based position, UmaScore = Score + uma(Rank) and
UmaScore_x50 = UmaScore * 50. -/
def compute_uma_and_rank (t : Nat → Option ℚ) (g : List Row) : Option (List DRow) :=
  annotate t (List.insertionSort byScoreDesc g) 0

/-- One row of the wide score table of lines 27-30: a date and one raw
score per player column; the row's ordinal position is its GameID. -/
structure WideRow where
  date : Nat
  scores : List ℚ
  deriving DecidableEq

/-- The melt of lines 33-37: one long row per (player column, game), in
column-major order; gameId is the game's ordinal position. -/
def melt (ps : List Player) (games : List WideRow) : List Row :=
  ps.enum.flatMap (fun pi =>
    games.enum.map (fun gi =>
      { gameId := gi.1, date := gi.2.date, player := pi.2,
        score := gi.2.scores.getD pi.1 0 }))

/-- The rows of one GameID group of the groupby of line 49 (GameID is
unique per game, so the extra Date key changes nothing). -/
def gameGroup (l : List Row) (gid : Nat) : List Row :=
  l.filter (fun r => r.gameId == gid)

/-- Option-valued mapM, written out so it can be handled by structural
induction. -/
def mapMOpt (f : α → Option β) : List α → Option (List β)
  | [] => some []
  | x :: xs =>
    match f x, mapMOpt f xs with
    | some y, some ys => some (y :: ys)
    | _, _ => none

/-- Line 49: apply `compute_uma_and_rank` to every GameID group and
concatenate the transformed groups in GameID order.  This runs at startup;
its only failure path is a failing uma lookup inside a group. -/
def longDfOpt (t : Nat → Option ℚ) (ps : List Player) (games : List WideRow) :
    Option (List DRow) :=
  (mapMOpt (fun gid => compute_uma_and_rank t (gameGroup (melt ps games) gid))
      (List.range games.length)).map List.flatten

/-- The inclusive date-range mask of lines 200-201 (and its copies at
lines 356-357, 384-385 and 415-416). -/
def dateFilter (s e : Nat) (l : List DRow) : List DRow :=
  l.filter (fun r => decide (s ≤ r.date) && decide (r.date ≤ e))

/-- The players of a filtered relation, in the order produced by a pandas
groupby: each distinct Player key once, sorted ascending. -/
def playersOf (l : List DRow) : List Player :=
  List.insertionSort (· ≤ ·) (l.map DRow.player).dedup

/-- Per-player column sum of a groupby aggregation. -/
def playerSum (l : List DRow) (f : DRow → ℚ) (p : Player) : ℚ :=
  ((l.filter (fun r => r.player == p)).map f).sum

/-- Per-player column max (pandas groupby max; the group of a listed
player is nonempty, so the default is never taken on groupby output). -/
def playerMax (l : List DRow) (f : DRow → ℚ) (p : Player) : ℚ :=
  match (l.filter (fun r => r.player == p)).map f with
  | [] => 0
  | x :: xs => xs.foldl max x

/-- Per-player column min. -/
def playerMin (l : List DRow) (f : DRow → ℚ) (p : Player) : ℚ :=
  match (l.filter (fun r => r.player == p)).map f with
  | [] => 0
  | x :: xs => xs.foldl min x

/-- Comparison sorting (player, value) pairs by value descending, as in
`sort_values(..., ascending=False)` at lines 206, 250, 275 and 297. -/
def bySndDesc (a b : Player × ℚ) : Prop := b.2 ≤ a.2

instance : DecidableRel bySndDesc := fun a b =>
  inferInstanceAs (Decidable (b.2 ≤ a.2))

instance : IsTotal (Player × ℚ) bySndDesc := ⟨fun a b => le_total b.2 a.2⟩

instance : IsTrans (Player × ℚ) bySndDesc := ⟨fun _ _ _ hab hbc => le_trans hbc hab⟩

/-- One row of the total point ranking of lines 204-210. -/
structure PointRow where
  pos : Nat
  player : Player
  pt : ℚ
  gap : ℚ
  deriving DecidableEq

/-- A default PointRow, only used as the `headD` fallback. -/
def ptRow0 : PointRow := { pos := 0, player := 0, pt := 0, gap := 0 }

/-- Lines 204-206: per-player raw-score sums, sorted descending. -/
def point_pairs (dff : List DRow) : List (Player × ℚ) :=
  List.insertionSort bySndDesc
    ((playersOf dff).map (fun p => (p, playerSum dff DRow.score p)))

/-- Line 207: the leader total, read off the first entry of the sorted
table, 0 when the table is empty. -/
def top_pt (dff : List DRow) : ℚ :=
  match point_pairs dff with
  | [] => 0
  | x :: _ => x.2

/-- Lines 204-210: the total point ranking; the gap column is the leader
total minus the own total and the rank column the 1-based position. -/
def point_summary (dff : List DRow) : List PointRow :=
  (point_pairs dff).enum.map (fun ix =>
    { pos := ix.1 + 1, player := ix.2.1, pt := ix.2.2, gap := top_pt dff - ix.2.2 })

/-- Lines 249-252: per-player max UmaScore, sorted descending (the
1-based position column of line 251 is the entry's list position). -/
def highest_score (dff : List DRow) : List (Player × ℚ) :=
  List.insertionSort bySndDesc
    ((playersOf dff).map (fun p => (p, playerMax dff DRow.umaScore p)))

/-- The number of the player's rows in range (line 270). -/
def gamesCount (dff : List DRow) (p : Player) : Nat :=
  (dff.filter (fun r => r.player == p)).length

/-- The number of the player's rows in range with Rank 4 (line 271); the
left merge with fillna(0) of lines 272-273 makes this 0 when there are
none. -/
def rank4Count (dff : List DRow) (p : Player) : Nat :=
  (dff.filter (fun r => r.player == p && r.rank == 4)).length

/-- Lines 270-277: last-place avoidance rate per player, sorted
descending (the 1-based position column of line 276 is the entry's list
position). -/
def avoidance (dff : List DRow) : List (Player × ℚ) :=
  List.insertionSort bySndDesc
    ((playersOf dff).map (fun p =>
      (p, ((gamesCount dff p : ℚ) - (rank4Count dff p : ℚ)) / (gamesCount dff p : ℚ) * 100)))

/-- Lines 295-298: per-player UmaScore_x50 sums, each adjusted once by the
player's bapp offset with default 0, sorted descending (the 1-based
position column of line 298 is the entry's list position). -/
def uma50 (bapp : Player → Option ℚ) (dff : List DRow) : List (Player × ℚ) :=
  List.insertionSort bySndDesc
    ((playersOf dff).map (fun p =>
      (p, playerSum dff DRow.umaX50 p + (bapp p).getD 0)))

/-- Lexicographic comparison of (Date, Player) groupby keys. -/
def lexLe (a b : Nat × Nat) : Prop := a.1 < b.1 ∨ (a.1 = b.1 ∧ a.2 ≤ b.2)

instance : DecidableRel lexLe := fun a b =>
  inferInstanceAs (Decidable (a.1 < b.1 ∨ (a.1 = b.1 ∧ a.2 ≤ b.2)))

instance : IsTotal (Nat × Nat) lexLe :=
  ⟨fun a b => by
    rcases Nat.lt_trichotomy a.1 b.1 with h | h | h
    · exact Or.inl (Or.inl h)
    · rcases le_total a.2 b.2 with h2 | h2
      · exact Or.inl (Or.inr ⟨h, h2⟩)
      · exact Or.inr (Or.inr ⟨h.symm, h2⟩)
    · exact Or.inr (Or.inl h)⟩

instance : IsTrans (Nat × Nat) lexLe :=
  ⟨fun a b c hab hbc => by
    rcases hab with h | ⟨he, h2⟩
    · rcases hbc with h' | ⟨he', _⟩
      · exact Or.inl (h.trans h')
      · exact Or.inl (he' ▸ h)
    · rcases hbc with h' | ⟨he', h2'⟩
      · exact Or.inl (he ▸ h')
      · exact Or.inr ⟨he.trans he', h2.trans h2'⟩⟩

/-- The sum of UmaScore over the rows of one (Date, Player) group
(line 386). -/
def dpSum (dff : List DRow) (d : Nat) (p : Player) : ℚ :=
  ((dff.filter (fun r => r.date == d && r.player == p)).map DRow.umaScore).sum

/-- Line 386: the distinct (Date, Player) keys in groupby order
(lexicographically ascending) with the summed UmaScore of each group. -/
def daily_sum (dff : List DRow) : List (Nat × Nat × ℚ) :=
  (List.insertionSort lexLe (dff.map (fun r => (r.date, r.player))).dedup).map
    (fun k => (k.1, k.2, dpSum dff k.1 k.2))

/-- Comparison of daily totals by date ascending (line 387). -/
def byDateLe (a b : Nat × Nat × ℚ) : Prop := a.1 ≤ b.1

instance : DecidableRel byDateLe := fun a b =>
  inferInstanceAs (Decidable (a.1 ≤ b.1))

instance : IsTotal (Nat × Nat × ℚ) byDateLe := ⟨fun a b => le_total a.1 b.1⟩

instance : IsTrans (Nat × Nat × ℚ) byDateLe := ⟨fun _ _ _ hab hbc => le_trans hab hbc⟩

/-- One row of the time-series table: a date, a player, the player's
daily UmaScore total and the running per-player cumulative sum. -/
structure DailyRow where
  date : Nat
  player : Player
  total : ℚ
  cum : ℚ
  deriving DecidableEq

/-- A default DailyRow, only used as the `getD` fallback. -/
def dRow0 : DailyRow := { date := 0, player := 0, total := 0, cum := 0 }

/-- Line 388: `groupby("Player").cumsum()`, as a fold carrying each
player's running total. -/
def cumsumAux (acc : Player → ℚ) : List (Nat × Nat × ℚ) → List DailyRow
  | [] => []
  | x :: xs =>
    { date := x.1, player := x.2.1, total := x.2.2, cum := acc x.2.1 + x.2.2 } ::
      cumsumAux (fun q => if q = x.2.1 then acc x.2.1 + x.2.2 else acc q) xs

/-- Lines 386-388: daily per-player totals, sorted by date ascending,
with the per-player running cumulative sum. -/
def daily_cum (dff : List DRow) : List DailyRow :=
  cumsumAux (fun _ => 0) (List.insertionSort byDateLe (daily_sum dff))

/-- The date-ordered sequence of one player's time-series rows. -/
def playerSeq (dff : List DRow) (p : Player) : List DailyRow :=
  (daily_cum dff).filter (fun r => r.player == p)

/-- One player column of the summary aggregation of lines 417-430. -/
structure SummaryCol where
  player : Player
  rawTotal : ℚ
  umaTotal : ℚ
  meanRank : ℚ
  yeeeenAdj : ℚ
  maxUma : ℚ
  minUma : ℚ
  meanUma : ℚ
  deriving DecidableEq

/-- Lines 417-430: the per-player summary statistics, with the Yeeeen
column adjusted once by the player's bapp offset (default 0). -/
def summary (bapp : Player → Option ℚ) (dff : List DRow) : List SummaryCol :=
  (playersOf dff).map (fun p =>
    { player := p,
      rawTotal := playerSum dff DRow.score p,
      umaTotal := playerSum dff DRow.umaScore p,
      meanRank := (((dff.filter (fun r => r.player == p)).map
        (fun r => (r.rank : ℚ))).sum) / (gamesCount dff p : ℚ),
      yeeeenAdj := playerSum dff DRow.umaX50 p + (bapp p).getD 0,
      maxUma := playerMax dff DRow.umaScore p,
      minUma := playerMin dff DRow.umaScore p,
      meanUma := playerSum dff DRow.umaScore p / (gamesCount dff p : ℚ) })

/-- The distinct Rank values observed in range, ascending: the columns of
the crosstab of line 435. -/
def ranksObserved (dff : List DRow) : List Nat :=
  List.insertionSort (· ≤ ·) (dff.map DRow.rank).dedup

/-- The number of the player's rows in range at the given rank: one cell
of the crosstab of line 435. -/
def rankCount (dff : List DRow) (p : Player) (r : Nat) : Nat :=
  (dff.filter (fun x => x.player == p && x.rank == r)).length

/-- Round half to even, the rounding of pandas `round`. -/
def roundHalfEven (q : ℚ) : ℤ :=
  if q - ⌊q⌋ < 1/2 then ⌊q⌋
  else if 1/2 < q - ⌊q⌋ then ⌊q⌋ + 1
  else if ⌊q⌋ % 2 = 0 then ⌊q⌋ else ⌊q⌋ + 1

/-- Rounding to two decimal places, as `.round(2)` at line 436. -/
def round2 (q : ℚ) : ℚ := (roundHalfEven (q * 100) : ℚ) / 100

/-- The unrounded occurrence rate of one rank for one player: the cell
count divided by the player's row total, times 100 (line 436). -/
def rawRate (dff : List DRow) (p : Player) (r : Nat) : ℚ :=
  (rankCount dff p r : ℚ) / (gamesCount dff p : ℚ) * 100

/-- Line 436: the rank-occurrence rate, rounded to two decimals. -/
def rankRate (dff : List DRow) (p : Player) (r : Nat) : ℚ :=
  round2 (rawRate dff p r)

/-- One player's row of the rank-rate table of lines 435-437: the rounded
rate for every rank observed in range. -/
def rankRateRow (dff : List DRow) (p : Player) : List ℚ :=
  (ranksObserved dff).map (rankRate dff p)

/-- Spec section 4.2 contract on the uma table: every rank 1..n is
present exactly once and the values sum to zero. -/
def umaTableValid (t : Nat → Option ℚ) (n : Nat) : Prop :=
  (∀ r ∈ List.range' 1 n, (t r).isSome) ∧
    ((List.range' 1 n).map (fun r => (t r).getD 0)).sum = 0

instance (t : Nat → Option ℚ) (n : Nat) : Decidable (umaTableValid t n) :=
  inferInstanceAs (Decidable (_ ∧ _))

/-! ### Lemmas about the per-game transform -/

theorem annotate_eq_some (t : Nat → Option ℚ) :
    ∀ (l : List Row) (i : Nat) (out : List DRow), annotate t l i = some out →
      out.map DRow.rank = List.range' (i + 1) l.length ∧
      out.map DRow.score = l.map Row.score ∧
      (out.map DRow.umaScore).sum =
        (l.map Row.score).sum +
          ((List.range' (i + 1) l.length).map (fun r => (t r).getD 0)).sum ∧
      (∀ r ∈ out, r.umaX50 = r.umaScore * 50) := by
  intro l
  induction l with
  | nil =>
    intro i out h
    simp only [annotate, Option.some.injEq] at h
    subst h
    simp
  | cons r rs ih =>
    intro i out h
    simp only [annotate] at h
    cases ht : t (i + 1) with
    | none => rw [ht] at h; exact absurd h (by simp)
    | some u =>
      cases ha : annotate t rs (i + 1) with
      | none => rw [ht, ha] at h; exact absurd h (by simp)
      | some rest =>
        rw [ht, ha] at h
        simp only [Option.some.injEq] at h
        subst h
        obtain ⟨h1, h2, h3, h4⟩ := ih (i + 1) rest ha
        refine ⟨?_, ?_, ?_, ?_⟩
        · simp [List.range'_succ, h1]
        · simp [h2]
        · simp only [List.map_cons, List.sum_cons, List.length_cons,
            List.range'_succ, ht, h3]
          simp only [Option.getD_some]
          ring
        · intro x hx
          rcases List.mem_cons.mp hx with hx | hx
          · subst hx; rfl
          · exact h4 x hx

theorem compute_eq_some (t : Nat → Option ℚ) (g : List Row) (out : List DRow)
    (h : compute_uma_and_rank t g = some out) :
    out.map DRow.rank = List.range' 1 g.length ∧
    (out.map DRow.score).Perm (g.map Row.score) ∧
    (out.map DRow.umaScore).sum =
      (g.map Row.score).sum +
        ((List.range' 1 g.length).map (fun r => (t r).getD 0)).sum ∧
    (∀ r ∈ out, r.umaX50 = r.umaScore * 50) ∧
    (out.map DRow.score).Pairwise (fun a b => b ≤ a) := by
  unfold compute_uma_and_rank at h
  obtain ⟨h1, h2, h3, h4⟩ := annotate_eq_some t _ 0 out h
  have hperm : (List.insertionSort byScoreDesc g).Perm g :=
    List.perm_insertionSort byScoreDesc g
  have hlen : (List.insertionSort byScoreDesc g).length = g.length :=
    hperm.length_eq
  have hsorted : ((List.insertionSort byScoreDesc g).map Row.score).Pairwise
      (fun a b => b ≤ a) :=
    List.pairwise_map.mpr (List.sorted_insertionSort byScoreDesc g)
  refine ⟨by rw [h1, hlen], by rw [h2]; exact hperm.map Row.score, ?_,
    h4, by rw [h2]; exact hsorted⟩
  rw [h3, hlen, (hperm.map Row.score).sum_eq]

/-! ### Claim C1 and C2 -/

/-- C1: within each game group, the Rank values assigned by
`compute_uma_and_rank` are, in the output's order, exactly 1, 2, ..., N
for N the group size - so they form a duplicate-free permutation of
1..N - and the output scores are the group's raw scores reordered
descending, so each rank is the 1-based position in that sorted order. -/
theorem rank_values_are_one_to_N (t : Nat → Option ℚ) (g : List Row) (out : List DRow)
    (h : compute_uma_and_rank t g = some out) :
    out.map DRow.rank = List.range' 1 g.length ∧
    (out.map DRow.rank).Nodup ∧
    (out.map DRow.score).Perm (g.map Row.score) ∧
    (out.map DRow.score).Pairwise (fun a b => b ≤ a) := by
  obtain ⟨h1, h2, _, _, h5⟩ := compute_eq_some t g out h
  exact ⟨h1, by rw [h1]; exact List.nodup_range' 1 g.length, h2, h5⟩

/-- A concrete four-player game group. -/
def g1 : List Row :=
  [⟨0, 10, 0, 25⟩, ⟨0, 10, 1, 30⟩, ⟨0, 10, 2, 20⟩, ⟨0, 10, 3, 5⟩]

/-- The annotated form of `g1` under the uma table of line 40. -/
def g1out : List DRow :=
  [⟨0, 10, 1, 30, 1, 50, 2500⟩, ⟨0, 10, 0, 25, 2, 35, 1750⟩,
   ⟨0, 10, 2, 20, 3, 10, 500⟩, ⟨0, 10, 3, 5, 4, -15, -750⟩]

/-- C1 witness: the rank permutation property evaluated on `g1`. -/
theorem rank_values_are_one_to_N_witness :
    g1out.map DRow.rank = List.range' 1 g1.length ∧
    (g1out.map DRow.rank).Nodup ∧
    (g1out.map DRow.score).Perm (g1.map Row.score) ∧
    (g1out.map DRow.score).Pairwise (fun a b => b ≤ a) :=
  rank_values_are_one_to_N rank2uma g1 g1out (by
    norm_num [g1, g1out, compute_uma_and_rank, annotate, rank2uma,
      List.insertionSort, List.orderedInsert, byScoreDesc])

/-- C2: the uma table of line 40 sums to zero over ranks 1..4, and
therefore every complete four-player game group has equal umaScore and
raw-score totals. -/
theorem uma_adjustment_zero_sum (g : List Row) (out : List DRow)
    (h : compute_uma_and_rank rank2uma g = some out) (hlen : g.length = 4) :
    ((List.range' 1 4).map (fun r => (rank2uma r).getD 0)).sum = 0 ∧
    (out.map DRow.umaScore).sum = (g.map Row.score).sum := by
  obtain ⟨_, _, h3, _, _⟩ := compute_eq_some rank2uma g out h
  have h0 : ((List.range' 1 4).map (fun r => (rank2uma r).getD 0)).sum = 0 := by
    have hr : List.range' 1 4 = [1, 2, 3, 4] := by decide
    rw [hr]
    norm_num [rank2uma]
  rw [hlen] at h3
  exact ⟨h0, by rw [h3, h0, add_zero]⟩

/-- C2 witness: the zero-sum property evaluated on `g1`. -/
theorem uma_adjustment_zero_sum_witness :
    ((List.range' 1 4).map (fun r => (rank2uma r).getD 0)).sum = 0 ∧
    (g1out.map DRow.umaScore).sum = (g1.map Row.score).sum :=
  uma_adjustment_zero_sum g1 g1out (by
    norm_num [g1, g1out, compute_uma_and_rank, annotate, rank2uma,
      List.insertionSort, List.orderedInsert, byScoreDesc]) (by decide)

/-! ### Lemmas about the startup pipeline and the player lists -/

theorem mapMOpt_eq_some_mem {α β : Type} (f : α → Option β) :
    ∀ (l : List α) (L : List β), mapMOpt f l = some L →
      ∀ c ∈ L, ∃ a ∈ l, f a = some c := by
  intro l
  induction l with
  | nil =>
    intro L h c hc
    simp only [mapMOpt, Option.some.injEq] at h
    subst h
    exact absurd hc (by simp)
  | cons x xs ih =>
    intro L h c hc
    simp only [mapMOpt] at h
    cases hf : f x with
    | none => rw [hf] at h; exact absurd h (by simp)
    | some y =>
      cases hm : mapMOpt f xs with
      | none => rw [hf, hm] at h; exact absurd h (by simp)
      | some ys =>
        rw [hf, hm] at h
        simp only [Option.some.injEq] at h
        subst h
        rcases List.mem_cons.mp hc with hc | hc
        · exact ⟨x, List.mem_cons_self x xs, by rw [hf, hc]⟩
        · obtain ⟨a, ha, hfa⟩ := ih ys hm c hc
          exact ⟨a, List.mem_cons_of_mem x ha, hfa⟩

theorem longDf_scaled (t : Nat → Option ℚ) (ps : List Player) (games : List WideRow)
    (out : List DRow) (h : longDfOpt t ps games = some out) :
    ∀ r ∈ out, r.umaX50 = r.umaScore * 50 := by
  intro r hr
  unfold longDfOpt at h
  cases hm : mapMOpt (fun gid => compute_uma_and_rank t (gameGroup (melt ps games) gid))
      (List.range games.length) with
  | none => rw [hm] at h; exact absurd h (by simp)
  | some L =>
    rw [hm] at h
    simp only [Option.map_some', Option.some.injEq] at h
    subst h
    obtain ⟨c, hcL, hrc⟩ := List.mem_flatten.mp hr
    obtain ⟨gid, _, hgid⟩ := mapMOpt_eq_some_mem _ _ L hm c hcL
    exact (compute_eq_some t _ c hgid).2.2.2.1 r hrc

theorem playerSum_scaled (dff : List DRow) (p : Player)
    (hx : ∀ r ∈ dff, r.umaX50 = r.umaScore * 50) :
    playerSum dff DRow.umaX50 p = playerSum dff DRow.umaScore p * 50 := by
  unfold playerSum
  rw [List.map_congr_left
    (fun r hr => hx r (List.mem_of_mem_filter hr))]
  exact List.sum_map_mul_right _ DRow.umaScore 50

theorem mem_playersOf {l : List DRow} {p : Player} :
    p ∈ playersOf l ↔ p ∈ l.map DRow.player := by
  unfold playersOf
  rw [List.mem_insertionSort]
  exact List.mem_dedup

theorem nodup_playersOf (l : List DRow) : (playersOf l).Nodup :=
  ((List.perm_insertionSort _ _).nodup_iff).mpr (l.map DRow.player).nodup_dedup

theorem keyed_table_unique (ps : List Player) (f : Player → ℚ) (p : Player)
    (hnd : ps.Nodup) (hp : p ∈ ps) :
    ((List.insertionSort bySndDesc (ps.map fun q => (q, f q))).filter
      (fun x => x.1 == p)).length = 1 := by
  rw [← List.countP_eq_length_filter]
  rw [(List.perm_insertionSort _ _).countP_eq]
  rw [List.countP_map]
  have hc := List.count_eq_one_of_mem hnd hp
  simpa [List.count, Function.comp_def] using hc

/-! ### Claim C3 -/

/-- C3: in the Yeeeen table over any date-filtered slice of the derived
relation, every appearing player has exactly one entry, and that entry's
value is the sum of the player's scaled scores (umaScore * 50) plus the
player's flat bapp offset added exactly once, the offset being 0 when
the player is absent from the bapp table. -/
theorem yeeeen_offset_applied_once
    (bapp : Player → Option ℚ) (t : Nat → Option ℚ) (ps : List Player)
    (games : List WideRow) (out : List DRow) (s e : Nat) (p : Player)
    (h : longDfOpt t ps games = some out)
    (hp : p ∈ (dateFilter s e out).map DRow.player) :
    (p, playerSum (dateFilter s e out) DRow.umaScore p * 50 + (bapp p).getD 0)
        ∈ uma50 bapp (dateFilter s e out) ∧
    ((uma50 bapp (dateFilter s e out)).filter (fun x => x.1 == p)).length = 1 ∧
    (bapp p = none →
      (p, playerSum (dateFilter s e out) DRow.umaScore p * 50)
        ∈ uma50 bapp (dateFilter s e out)) := by
  have hx : ∀ r ∈ dateFilter s e out, r.umaX50 = r.umaScore * 50 := fun r hr =>
    longDf_scaled t ps games out h r (List.mem_of_mem_filter hr)
  have hsum : playerSum (dateFilter s e out) DRow.umaX50 p =
      playerSum (dateFilter s e out) DRow.umaScore p * 50 :=
    playerSum_scaled (dateFilter s e out) p hx
  have hmem : p ∈ playersOf (dateFilter s e out) := mem_playersOf.mpr hp
  have h1 : (p, playerSum (dateFilter s e out) DRow.umaX50 p + (bapp p).getD 0)
      ∈ uma50 bapp (dateFilter s e out) := by
    unfold uma50
    rw [List.mem_insertionSort]
    exact List.mem_map_of_mem _ hmem
  refine ⟨by rw [← hsum]; exact h1, ?_, ?_⟩
  · exact keyed_table_unique (playersOf (dateFilter s e out)) _ p
      (nodup_playersOf _) hmem
  · intro hb
    rw [← hsum]
    have h1b := h1
    rw [hb] at h1b
    simpa using h1b

/-- The four player columns of the sample wide table. -/
def samplePlayers : List Player := [0, 1, 2, 3]

/-- A concrete two-game wide table. -/
def sampleGames : List WideRow :=
  [⟨10, [25, 30, 20, 5]⟩, ⟨11, [8, 12, 40, 21]⟩]

/-- The long-form relation derived from `sampleGames` at startup. -/
def sampleOut : List DRow :=
  [⟨0, 10, 1, 30, 1, 50, 2500⟩, ⟨0, 10, 0, 25, 2, 35, 1750⟩,
   ⟨0, 10, 2, 20, 3, 10, 500⟩, ⟨0, 10, 3, 5, 4, -15, -750⟩,
   ⟨1, 11, 2, 40, 1, 60, 3000⟩, ⟨1, 11, 3, 21, 2, 31, 1550⟩,
   ⟨1, 11, 1, 12, 3, 2, 100⟩, ⟨1, 11, 0, 8, 4, -12, -600⟩]

/-- A concrete bapp table that lists player 0 only. -/
def sampleBapp : Player → Option ℚ := fun p => if p = 0 then some (-1000) else none

/-- C3 witness: the Yeeeen entry of player 1 over the full sample range. -/
theorem yeeeen_offset_applied_once_witness :
    (1, playerSum (dateFilter 0 20 sampleOut) DRow.umaScore 1 * 50 +
        (sampleBapp 1).getD 0) ∈ uma50 sampleBapp (dateFilter 0 20 sampleOut) :=
  (yeeeen_offset_applied_once sampleBapp rank2uma samplePlayers sampleGames
    sampleOut 0 20 1
    (by
      norm_num [samplePlayers, sampleGames, sampleOut, longDfOpt, mapMOpt, melt,
        gameGroup, compute_uma_and_rank, annotate, rank2uma, List.insertionSort,
        List.orderedInsert, byScoreDesc, List.range, List.enum, List.enumFrom,
        List.range_succ])
    (by decide)).1

/-! ### Claim C5 -/

/-- C5: in the last-place avoidance table, every player with at least one
row in range appears with rate (games - rank4games) / games * 100 - the
rank-4 count taken as 0 when they have none, by construction of
`rank4Count` - and every player with no rows in range is omitted from
the table altogether (so no division by zero is ever consulted). -/
theorem avoidance_rate_and_omission (dff : List DRow) (p : Player) :
    (p ∈ dff.map DRow.player →
      (p, ((gamesCount dff p : ℚ) - (rank4Count dff p : ℚ)) /
          (gamesCount dff p : ℚ) * 100) ∈ avoidance dff ∧
        1 ≤ gamesCount dff p) ∧
    (p ∉ dff.map DRow.player → ∀ x ∈ avoidance dff, x.1 ≠ p) := by
  constructor
  · intro hp
    constructor
    · unfold avoidance
      rw [List.mem_insertionSort]
      exact List.mem_map_of_mem _ (mem_playersOf.mpr hp)
    · obtain ⟨r, hr, hrp⟩ := List.mem_map.mp hp
      have hmem : r ∈ dff.filter (fun x => x.player == p) :=
        List.mem_filter.mpr ⟨hr, by simp [hrp]⟩
      have := List.length_pos_of_mem hmem
      unfold gamesCount
      omega
  · intro hp x hx hxp
    apply hp
    unfold avoidance at hx
    rw [List.mem_insertionSort] at hx
    obtain ⟨q, hq, hqx⟩ := List.mem_map.mp hx
    have hx1 : x.1 = q := by rw [← hqx]
    rw [← mem_playersOf]
    have hpq : p = q := by rw [← hxp, hx1]
    rw [hpq]
    exact hq

/-- C5 witness: player 0 appears with the stated rate over the full
sample range, and absent player 7 is omitted. -/
theorem avoidance_rate_and_omission_witness :
    ((0, ((gamesCount (dateFilter 0 20 sampleOut) 0 : ℚ) -
          (rank4Count (dateFilter 0 20 sampleOut) 0 : ℚ)) /
        (gamesCount (dateFilter 0 20 sampleOut) 0 : ℚ) * 100)
        ∈ avoidance (dateFilter 0 20 sampleOut) ∧
      1 ≤ gamesCount (dateFilter 0 20 sampleOut) 0) ∧
    (∀ x ∈ avoidance (dateFilter 0 20 sampleOut), x.1 ≠ 7) :=
  ⟨(avoidance_rate_and_omission (dateFilter 0 20 sampleOut) 0).1 (by decide),
   (avoidance_rate_and_omission (dateFilter 0 20 sampleOut) 7).2 (by decide)⟩

/-! ### Claim C7 -/

theorem enumFrom_snd_mem {α : Type} :
    ∀ (l : List α) (i : Nat) (pr : Nat × α), pr ∈ l.enumFrom i → pr.2 ∈ l := by
  intro l
  induction l with
  | nil => intro i pr h; exact absurd h (by simp)
  | cons x xs ih =>
    intro i pr h
    rw [List.enumFrom_cons] at h
    rcases List.mem_cons.mp h with h | h
    · rw [h]; exact List.mem_cons_self x xs
    · exact List.mem_cons_of_mem x (ih (i + 1) pr h)

theorem enumFrom_pos_map {α : Type} :
    ∀ (l : List α) (i : Nat),
      (l.enumFrom i).map (fun ix => ix.1 + 1) = List.range' (i + 1) l.length := by
  intro l
  induction l with
  | nil => intro i; simp
  | cons x xs ih => intro i; simp [List.range'_succ, ih]

theorem point_pairs_le_top (dff : List DRow) :
    ∀ a ∈ point_pairs dff, a.2 ≤ top_pt dff := by
  have hs : List.Sorted bySndDesc (point_pairs dff) :=
    List.sorted_insertionSort bySndDesc _
  intro a ha
  cases hp : point_pairs dff with
  | nil => rw [hp] at ha; exact absurd ha (by simp)
  | cons x rest =>
    rw [hp] at ha hs
    have htop : top_pt dff = x.2 := by unfold top_pt; rw [hp]
    rw [htop]
    rcases List.mem_cons.mp ha with h | h
    · rw [h]
    · exact (List.pairwise_cons.mp hs).1 a h

theorem point_pairs_val (dff : List DRow) :
    ∀ a ∈ point_pairs dff, a.2 = playerSum dff DRow.score a.1 := by
  intro a ha
  unfold point_pairs at ha
  rw [List.mem_insertionSort] at ha
  obtain ⟨q, _, hqa⟩ := List.mem_map.mp ha
  rw [← hqa]

/-- C7: over a nonempty filtered slice, the total point ranking is
nonempty, every row's gap is the leader total minus the row's total, the
leader total bounds every row's total from above (it is the largest
per-player raw-score sum, and is itself the first row's total), the rank
column is 1, 2, ..., and the first - top-ranked - row's gap is 0. -/
theorem total_point_gap_top_zero (dff : List DRow) (hne : dff ≠ []) :
    point_summary dff ≠ [] ∧
    ((point_summary dff).headD ptRow0).gap = 0 ∧
    ((point_summary dff).headD ptRow0).pt = top_pt dff ∧
    (∀ row ∈ point_summary dff,
      row.gap = top_pt dff - row.pt ∧
      row.pt ≤ top_pt dff ∧
      row.pt = playerSum dff DRow.score row.player) ∧
    (point_summary dff).map PointRow.pos = List.range' 1 (point_summary dff).length := by
  obtain ⟨r, hr⟩ : ∃ r, r ∈ dff := by
    cases dff with
    | nil => exact absurd rfl hne
    | cons a l => exact ⟨a, List.mem_cons_self a l⟩
  have hp2 : (r.player, playerSum dff DRow.score r.player) ∈ point_pairs dff := by
    unfold point_pairs
    rw [List.mem_insertionSort]
    exact List.mem_map_of_mem _ (mem_playersOf.mpr (List.mem_map_of_mem _ hr))
  have hrows : ∀ row ∈ point_summary dff,
      row.gap = top_pt dff - row.pt ∧
      row.pt ≤ top_pt dff ∧
      row.pt = playerSum dff DRow.score row.player := by
    intro row hrow
    unfold point_summary at hrow
    obtain ⟨ix, hix, hrow⟩ := List.mem_map.mp hrow
    have hmemp : ix.2 ∈ point_pairs dff := enumFrom_snd_mem _ 0 ix hix
    rw [← hrow]
    exact ⟨rfl, point_pairs_le_top dff ix.2 hmemp, point_pairs_val dff ix.2 hmemp⟩
  have hposmap : (point_summary dff).map PointRow.pos =
      List.range' 1 (point_summary dff).length := by
    unfold point_summary
    rw [List.map_map]
    have h0 := enumFrom_pos_map (point_pairs dff) 0
    simpa using h0
  cases hp : point_pairs dff with
  | nil => rw [hp] at hp2; exact absurd hp2 (by simp)
  | cons x rest =>
    have htop : top_pt dff = x.2 := by unfold top_pt; rw [hp]
    have hps : point_summary dff =
        ({ pos := 0 + 1, player := x.1, pt := x.2, gap := top_pt dff - x.2 } : PointRow) ::
          (List.enumFrom 1 rest).map (fun ix =>
            { pos := ix.1 + 1, player := ix.2.1, pt := ix.2.2,
              gap := top_pt dff - ix.2.2 }) := by
      unfold point_summary
      rw [hp]
      rfl
    refine ⟨by rw [hps]; exact List.cons_ne_nil _ _, ?_, ?_, hrows, hposmap⟩
    · rw [hps, List.headD_cons]
      show top_pt dff - x.2 = 0
      rw [htop]
      exact sub_self x.2
    · rw [hps, List.headD_cons]
      show x.2 = top_pt dff
      rw [htop]

/-- C7 witness: the top-ranked row's gap over the full sample range is 0. -/
theorem total_point_gap_top_zero_witness :
    ((point_summary (dateFilter 0 20 sampleOut)).headD ptRow0).gap = 0 :=
  (total_point_gap_top_zero (dateFilter 0 20 sampleOut) (by decide)).2.1

/-! ### Claim C6 -/

/-- C6: when the date filter selects no rows, every aggregator - the four
ranking tables, the time series and the summary (statistics columns and
rank-rate columns) - produces an empty table; all of them are total
functions of the filtered relation, so nothing is raised. -/
theorem empty_range_empty_outputs (bapp : Player → Option ℚ) (s e : Nat)
    (out : List DRow) (h : dateFilter s e out = []) :
    point_summary (dateFilter s e out) = [] ∧
    highest_score (dateFilter s e out) = [] ∧
    avoidance (dateFilter s e out) = [] ∧
    uma50 bapp (dateFilter s e out) = [] ∧
    daily_cum (dateFilter s e out) = [] ∧
    summary bapp (dateFilter s e out) = [] ∧
    ranksObserved (dateFilter s e out) = [] := by
  rw [h]
  exact ⟨rfl, rfl, rfl, rfl, rfl, rfl, rfl⟩

/-- C6 witness: a range past every sample date selects nothing and all
outputs are empty. -/
theorem empty_range_empty_outputs_witness :
    point_summary (dateFilter 30 40 sampleOut) = [] ∧
    highest_score (dateFilter 30 40 sampleOut) = [] ∧
    avoidance (dateFilter 30 40 sampleOut) = [] ∧
    uma50 sampleBapp (dateFilter 30 40 sampleOut) = [] ∧
    daily_cum (dateFilter 30 40 sampleOut) = [] ∧
    summary sampleBapp (dateFilter 30 40 sampleOut) = [] ∧
    ranksObserved (dateFilter 30 40 sampleOut) = [] :=
  empty_range_empty_outputs sampleBapp 30 40 sampleOut (by decide)

/-! ### Claim C4 -/

/-- The running-total recurrence: each row's cumulative value is the
previous cumulative value of the same sequence plus the row's total,
starting from `c`. -/
def chainFrom (c : ℚ) : List DailyRow → Prop
  | [] => True
  | x :: xs => x.cum = c + x.total ∧ chainFrom x.cum xs

theorem chainFrom_congr (c c' : ℚ) (h : c = c') :
    ∀ (rows : List DailyRow), chainFrom c rows → chainFrom c' rows := by
  intro rows hc
  cases rows with
  | nil => exact trivial
  | cons x xs => exact ⟨h ▸ hc.1, hc.2⟩

theorem cumsumAux_chain :
    ∀ (l : List (Nat × Nat × ℚ)) (acc : Player → ℚ) (p : Player),
      chainFrom (acc p) ((cumsumAux acc l).filter (fun r => r.player == p)) := by
  intro l
  induction l with
  | nil => intro acc p; exact trivial
  | cons x xs ih =>
    intro acc p
    have hrow : cumsumAux acc (x :: xs) =
        { date := x.1, player := x.2.1, total := x.2.2, cum := acc x.2.1 + x.2.2 } ::
          cumsumAux (fun q => if q = x.2.1 then acc x.2.1 + x.2.2 else acc q) xs := rfl
    rw [hrow, List.filter_cons]
    by_cases hp : x.2.1 = p
    · rw [if_pos (by simp [hp])]
      refine ⟨by rw [hp], ?_⟩
      have hacc : (fun q => if q = x.2.1 then acc x.2.1 + x.2.2 else acc q) p =
          acc x.2.1 + x.2.2 := by
        show (if p = x.2.1 then acc x.2.1 + x.2.2 else acc p) = acc x.2.1 + x.2.2
        rw [if_pos hp.symm]
      exact chainFrom_congr _ _ hacc _
        (ih (fun q => if q = x.2.1 then acc x.2.1 + x.2.2 else acc q) p)
    · rw [if_neg (by simp [hp])]
      have hacc : (fun q => if q = x.2.1 then acc x.2.1 + x.2.2 else acc q) p =
          acc p := by
        show (if p = x.2.1 then acc x.2.1 + x.2.2 else acc p) = acc p
        rw [if_neg (fun hc => hp hc.symm)]
      exact chainFrom_congr _ _ hacc _
        (ih (fun q => if q = x.2.1 then acc x.2.1 + x.2.2 else acc q) p)

theorem chainFrom_getD :
    ∀ (rows : List DailyRow) (c : ℚ), chainFrom c rows →
      (∀ i, i + 1 < rows.length →
        (rows.getD (i + 1) dRow0).cum =
          (rows.getD i dRow0).cum + (rows.getD (i + 1) dRow0).total) ∧
      (rows ≠ [] → (rows.getD 0 dRow0).cum = c + (rows.getD 0 dRow0).total) := by
  intro rows
  induction rows with
  | nil =>
    intro c _
    exact ⟨fun i h => absurd h (by simp), fun h => absurd rfl h⟩
  | cons x xs ih =>
    intro c hc
    obtain ⟨h1, h2⟩ := hc
    constructor
    · intro i hi
      cases i with
      | zero =>
        have hxs : xs ≠ [] := by
          cases xs with
          | nil => simp at hi
          | cons _ _ => exact List.cons_ne_nil _ _
        have hrec := (ih x.cum h2).2 hxs
        simpa [List.getD_cons_succ, List.getD_cons_zero] using hrec
      | succ n =>
        have hrec := (ih x.cum h2).1 n (by simpa using hi)
        simpa [List.getD_cons_succ] using hrec
    · intro _
      simpa [List.getD_cons_zero] using h1

theorem cumsumAux_dates :
    ∀ (l : List (Nat × Nat × ℚ)) (acc : Player → ℚ),
      (cumsumAux acc l).map DailyRow.date = l.map (fun x => x.1) := by
  intro l
  induction l with
  | nil => intro acc; rfl
  | cons x xs ih => intro acc; simp only [cumsumAux, List.map_cons, ih]

theorem cumsumAux_mem :
    ∀ (l : List (Nat × Nat × ℚ)) (acc : Player → ℚ) (r : DailyRow),
      r ∈ cumsumAux acc l → (r.date, r.player, r.total) ∈ l := by
  intro l
  induction l with
  | nil => intro acc r h; exact absurd h (by simp [cumsumAux])
  | cons x xs ih =>
    intro acc r h
    rcases List.mem_cons.mp h with h | h
    · rw [h]
      simp
    · exact List.mem_cons_of_mem x (ih _ r h)

theorem daily_cum_total (dff : List DRow) :
    ∀ r ∈ daily_cum dff, r.total = dpSum dff r.date r.player := by
  intro r hr
  unfold daily_cum at hr
  have h1 := cumsumAux_mem _ _ r hr
  rw [List.mem_insertionSort] at h1
  unfold daily_sum at h1
  obtain ⟨k, _, hk⟩ := List.mem_map.mp h1
  rw [Prod.mk.injEq, Prod.mk.injEq] at hk
  obtain ⟨hd, hp, ht⟩ := hk
  rw [← hd, ← hp]
  exact ht.symm

theorem daily_cum_dates_sorted (dff : List DRow) :
    ((daily_cum dff).map DailyRow.date).Pairwise (· ≤ ·) := by
  unfold daily_cum
  rw [cumsumAux_dates]
  exact List.pairwise_map.mpr (List.sorted_insertionSort byDateLe (daily_sum dff))

/-- C4: the time-series table is sorted by date ascending, each row's
total is the UmaScore sum of its (date, player) group, and within each
player's subsequence the cumulative column satisfies
cum(i+1) = cum(i) + total(i+1) with cum(0) = total(0) - prefix sums of
the player's own daily totals, independent of every other player's. -/
theorem timeseries_prefix_sums (dff : List DRow) (p : Player) :
    ((daily_cum dff).map DailyRow.date).Pairwise (· ≤ ·) ∧
    (∀ r ∈ daily_cum dff, r.total = dpSum dff r.date r.player) ∧
    (∀ i, i + 1 < (playerSeq dff p).length →
      ((playerSeq dff p).getD (i + 1) dRow0).cum =
        ((playerSeq dff p).getD i dRow0).cum +
          ((playerSeq dff p).getD (i + 1) dRow0).total) ∧
    (playerSeq dff p ≠ [] →
      ((playerSeq dff p).getD 0 dRow0).cum =
        ((playerSeq dff p).getD 0 dRow0).total) := by
  have hch : chainFrom ((fun _ => (0 : ℚ)) p) (playerSeq dff p) := by
    unfold playerSeq daily_cum
    exact cumsumAux_chain (List.insertionSort byDateLe (daily_sum dff))
      (fun _ => (0 : ℚ)) p
  obtain ⟨ha, hb⟩ := chainFrom_getD _ _ hch
  refine ⟨daily_cum_dates_sorted dff, daily_cum_total dff, ha, fun hne => ?_⟩
  have hz := hb hne
  simpa using hz

/-- C4 witness: player 1's second time-series row over the sample range
equals its first row's cumulative value plus its own daily total. -/
theorem timeseries_prefix_sums_witness :
    ((playerSeq (dateFilter 0 20 sampleOut) 1).getD 1 dRow0).cum =
      ((playerSeq (dateFilter 0 20 sampleOut) 1).getD 0 dRow0).cum +
        ((playerSeq (dateFilter 0 20 sampleOut) 1).getD 1 dRow0).total :=
  (timeseries_prefix_sums (dateFilter 0 20 sampleOut) 1).2.2.1 0 (by decide)

/-! ### Claim C8 -/

theorem roundHalfEven_close (q : ℚ) : |((roundHalfEven q : ℤ) : ℚ) - q| ≤ 1 / 2 := by
  unfold roundHalfEven
  have hf1 : (⌊q⌋ : ℚ) ≤ q := Int.floor_le q
  have hf2 : q < ⌊q⌋ + 1 := Int.lt_floor_add_one q
  by_cases h1 : q - ⌊q⌋ < 1 / 2
  · rw [if_pos h1, abs_le]
    constructor <;> linarith
  · rw [if_neg h1]
    by_cases h2 : 1 / 2 < q - ⌊q⌋
    · rw [if_pos h2, abs_le]
      constructor <;> push_cast <;> linarith
    · rw [if_neg h2]
      have heq : q - ⌊q⌋ = 1 / 2 := le_antisymm (not_lt.mp h2) (not_lt.mp h1)
      by_cases h3 : ⌊q⌋ % 2 = 0
      · rw [if_pos h3, abs_le]
        constructor <;> linarith
      · rw [if_neg h3, abs_le]
        constructor <;> push_cast <;> linarith

theorem round2_close (q : ℚ) : |round2 q - q| ≤ 1 / 200 := by
  unfold round2
  have h := roundHalfEven_close (q * 100)
  have hstep : ((roundHalfEven (q * 100) : ℤ) : ℚ) / 100 - q =
      (((roundHalfEven (q * 100) : ℤ) : ℚ) - q * 100) / 100 := by ring
  rw [hstep, abs_div, abs_of_pos (by norm_num : (0 : ℚ) < 100)]
  linarith

theorem sum_round2_close : ∀ (l : List ℚ),
    |(l.map round2).sum - l.sum| ≤ (l.length : ℚ) / 200 := by
  intro l
  induction l with
  | nil => simp
  | cons x xs ih =>
    simp only [List.map_cons, List.sum_cons, List.length_cons]
    have h1 := round2_close x
    have hstep : round2 x + (xs.map round2).sum - (x + xs.sum) =
        (round2 x - x) + ((xs.map round2).sum - xs.sum) := by ring
    calc |round2 x + (xs.map round2).sum - (x + xs.sum)|
        = |(round2 x - x) + ((xs.map round2).sum - xs.sum)| := by rw [hstep]
      _ ≤ |round2 x - x| + |(xs.map round2).sum - xs.sum| := abs_add _ _
      _ ≤ 1 / 200 + (xs.length : ℚ) / 200 := add_le_add h1 ih
      _ = ((xs.length + 1 : ℕ) : ℚ) / 200 := by push_cast; ring

theorem sum_map_ite_zero (a : Nat) :
    ∀ (rs : List Nat), a ∉ rs →
      (rs.map (fun r => if a = r then (1 : ℕ) else 0)).sum = 0 := by
  intro rs
  induction rs with
  | nil => intro _; rfl
  | cons r rest ih =>
    intro h
    have h1 : a ≠ r := fun hc => h (hc ▸ List.mem_cons_self r rest)
    have h2 : a ∉ rest := fun hc => h (List.mem_cons_of_mem r hc)
    simp only [List.map_cons, List.sum_cons, if_neg h1, ih h2]

theorem sum_map_ite_one (a : Nat) :
    ∀ (rs : List Nat), rs.Nodup → a ∈ rs →
      (rs.map (fun r => if a = r then (1 : ℕ) else 0)).sum = 1 := by
  intro rs
  induction rs with
  | nil => intro _ h; exact absurd h (by simp)
  | cons r rest ih =>
    intro hnd hmem
    rcases List.mem_cons.mp hmem with h | h
    · have hnotin : a ∉ rest := by
        intro hc
        exact (List.pairwise_cons.mp hnd).1 a hc h.symm
      simp only [List.map_cons, List.sum_cons, if_pos h, sum_map_ite_zero a rest hnotin]
    · have h1 : a ≠ r := by
        intro hc
        exact ((List.pairwise_cons.mp hnd).1 a h) hc.symm
      simp only [List.map_cons, List.sum_cons, if_neg h1,
        ih (List.pairwise_cons.mp hnd).2 h, Nat.zero_add]

theorem count_partition (p : Player) :
    ∀ (l : List DRow) (rs : List Nat), rs.Nodup →
      (∀ x ∈ l, x.player = p → x.rank ∈ rs) →
      (rs.map (fun r =>
        (l.filter (fun x => x.player == p && x.rank == r)).length)).sum =
        (l.filter (fun x => x.player == p)).length := by
  intro l
  induction l with
  | nil => intro rs _ _; simp
  | cons x xs ih =>
    intro rs hnd hcov
    by_cases hpx : x.player = p
    · have hxr : x.rank ∈ rs := hcov x (List.mem_cons_self _ _) hpx
      have hterm : ∀ r ∈ rs,
          (((x :: xs).filter (fun y => y.player == p && y.rank == r)).length) =
            (if x.rank = r then 1 else 0) +
              ((xs.filter (fun y => y.player == p && y.rank == r)).length) := by
        intro r _
        rw [List.filter_cons]
        by_cases hr : x.rank = r
        · rw [if_pos (by simp [hpx, hr]), if_pos hr]
          simp [Nat.add_comm]
        · rw [if_neg (by simp [hr]), if_neg hr, Nat.zero_add]
      rw [List.map_congr_left hterm, List.sum_map_add, sum_map_ite_one x.rank rs hnd hxr,
        ih rs hnd (fun y hy hyp => hcov y (List.mem_cons_of_mem x hy) hyp),
        List.filter_cons, if_pos (by simp [hpx])]
      simp [Nat.add_comm]
    · have hterm : ∀ r ∈ rs,
          (((x :: xs).filter (fun y => y.player == p && y.rank == r)).length) =
            ((xs.filter (fun y => y.player == p && y.rank == r)).length) := by
        intro r _
        rw [List.filter_cons, if_neg (by simp [hpx])]
      rw [List.map_congr_left hterm, List.filter_cons, if_neg (by simp [hpx])]
      exact ih rs hnd (fun y hy hyp => hcov y (List.mem_cons_of_mem x hy) hyp)

theorem ranksObserved_cast_sum (dff : List DRow) (p : Player) :
    ((ranksObserved dff).map (fun r => (rankCount dff p r : ℚ))).sum =
      (gamesCount dff p : ℚ) := by
  have hnd : (ranksObserved dff).Nodup :=
    ((List.perm_insertionSort _ _).nodup_iff).mpr (List.nodup_dedup _)
  have hcov : ∀ x ∈ dff, x.player = p → x.rank ∈ ranksObserved dff := by
    intro x hx _
    unfold ranksObserved
    rw [List.mem_insertionSort]
    exact List.mem_dedup.mpr (List.mem_map_of_mem _ hx)
  have hNat : ((ranksObserved dff).map (fun r => rankCount dff p r)).sum =
      gamesCount dff p := by
    unfold rankCount gamesCount
    exact count_partition p dff (ranksObserved dff) hnd hcov
  calc ((ranksObserved dff).map (fun r => (rankCount dff p r : ℚ))).sum
      = (((ranksObserved dff).map (fun r => rankCount dff p r)).map
          (fun n : Nat => (n : ℚ))).sum := by rw [List.map_map]; rfl
    _ = ((((ranksObserved dff).map (fun r => rankCount dff p r)).sum : ℕ) : ℚ) :=
        (Nat.cast_list_sum _).symm
    _ = (gamesCount dff p : ℚ) := by rw [hNat]

/-- C8: for every player with at least one row in range, the rounded
rank-occurrence rates over all observed ranks sum to 100 up to the
rounding tolerance: each of the k rates is rounded to two decimals, so
the sum differs from 100 by at most k * (1/200). -/
theorem rank_rates_sum_to_100 (dff : List DRow) (p : Player)
    (h : 1 ≤ gamesCount dff p) :
    |(rankRateRow dff p).sum - 100| ≤ ((ranksObserved dff).length : ℚ) / 200 := by
  have hT : (0 : ℚ) < (gamesCount dff p : ℚ) := by exact_mod_cast h
  have hTne : (gamesCount dff p : ℚ) ≠ 0 := ne_of_gt hT
  have hraw : ((ranksObserved dff).map (rawRate dff p)).sum = 100 := by
    have h1 : ((ranksObserved dff).map (rawRate dff p)).sum =
        ((ranksObserved dff).map (fun r => (rankCount dff p r : ℚ))).sum *
          (100 / (gamesCount dff p : ℚ)) := by
      rw [List.map_congr_left (fun r _ =>
        show rawRate dff p r =
          (rankCount dff p r : ℚ) * (100 / (gamesCount dff p : ℚ)) from by
          unfold rawRate; ring)]
      exact List.sum_map_mul_right _ _ _
    rw [h1, ranksObserved_cast_sum dff p]
    field_simp
  have hrr : rankRateRow dff p = ((ranksObserved dff).map (rawRate dff p)).map round2 := by
    unfold rankRateRow rankRate
    rw [List.map_map]
    rfl
  have herr := sum_round2_close ((ranksObserved dff).map (rawRate dff p))
  rw [hrr, ← hraw]
  simpa [List.length_map] using herr

/-- C8 witness: player 1's rounded rank rates over the sample range. -/
theorem rank_rates_sum_to_100_witness :
    |(rankRateRow (dateFilter 0 20 sampleOut) 1).sum - 100| ≤
      ((ranksObserved (dateFilter 0 20 sampleOut)).length : ℚ) / 200 :=
  rank_rates_sum_to_100 (dateFilter 0 20 sampleOut) 1 (by decide)

/-! ### Claim C10 -/

/-- An uma table with rank 4 missing - a shape the spec declares invalid. -/
def umaMissingRank : Nat → Option ℚ
  | 1 => some 20
  | 2 => some 10
  | 3 => some (-10)
  | _ => none

/-- An uma table covering ranks 1..4 whose values sum to 1, not 0 -
invalid per the spec's zero-sum contract. -/
def umaNonZeroSum : Nat → Option ℚ
  | 1 => some 20
  | 2 => some 10
  | 3 => some (-10)
  | 4 => some (-19)
  | _ => none

/-- C10 counterexample: with a full-coverage but non-zero-sum - hence
invalid - uma table, the startup pipeline signals nothing at all: it
completes and the per-game computation silently proceeds, so the code
does not validate the table at startup. -/
theorem uma_validation_counterexample :
    ¬ umaTableValid umaNonZeroSum 4 ∧
    (longDfOpt umaNonZeroSum samplePlayers sampleGames).isSome = true := by
  refine ⟨?_, by decide⟩
  intro hv
  have hsum := hv.2
  have hr : List.range' 1 4 = [1, 2, 3, 4] := by decide
  rw [hr] at hsum
  norm_num [umaNonZeroSum] at hsum

/-- C10 amended: no uma-table validation exists anywhere in the code.
The hardcoded table happens to satisfy the spec's contract (full
coverage of ranks 1..4 and zero sum), so actual startup succeeds; a
table missing a rank makes the pipeline fail inside the per-game uma
lookup (the embedded KeyError), and a full-coverage table with non-zero
sum is silently accepted - no configuration error is ever signalled. -/
theorem uma_table_never_validated :
    umaTableValid rank2uma 4 ∧
    (¬ umaTableValid umaMissingRank 4 ∧
      longDfOpt umaMissingRank samplePlayers sampleGames = none) ∧
    (¬ umaTableValid umaNonZeroSum 4 ∧
      (longDfOpt umaNonZeroSum samplePlayers sampleGames).isSome = true) := by
  refine ⟨⟨by decide, ?_⟩, ⟨?_, by decide⟩, ⟨?_, by decide⟩⟩
  · have hr : List.range' 1 4 = [1, 2, 3, 4] := by decide
    rw [hr]
    norm_num [rank2uma]
  · intro hv
    have h4 := hv.1 4 (by decide)
    exact absurd h4 (by decide)
  · intro hv
    have hsum := hv.2
    have hr : List.range' 1 4 = [1, 2, 3, 4] := by decide
    rw [hr] at hsum
    norm_num [umaNonZeroSum] at hsum
